import Mathlib

/-!
Verification model of the deepagents-backends core: a dual-backend virtual
file storage layer (object store / relational store) offering read, write,
edit, list, glob and grep over a path-addressed store.

The backend implementations are shallowly embedded below.  Stateful backend
operations become explicit state passing over an association-list store;
fallible operations return result records carrying an optional error field,
matching the result types of the specification and the observable behaviour
pinned by the repository's unit and integration tests.
-/

set_option autoImplicit false

/-- Decimal digit character for a digit value, as used when rendering
1-based line numbers in `read` output. -/
def digitChar (n : Nat) : Char :=
  if n = 0 then '0' else if n = 1 then '1' else if n = 2 then '2'
  else if n = 3 then '3' else if n = 4 then '4' else if n = 5 then '5'
  else if n = 6 then '6' else if n = 7 then '7' else if n = 8 then '8'
  else if n = 9 then '9' else '*'

/-- Fuel-driven accumulator loop rendering a natural number in decimal. -/
def natToCharsAux : Nat → Nat → List Char → List Char
  | 0, _, acc => acc
  | fuel + 1, n, acc =>
    if n < 10 then digitChar n :: acc
    else natToCharsAux fuel (n / 10) (digitChar (n % 10) :: acc)

/-- Decimal rendering of a natural number as a character list. -/
def natToChars (n : Nat) : List Char := natToCharsAux (n + 1) n []

/-- Whether the character `sep` occurs in the list. -/
def hasChar (sep : Char) : List Char → Bool
  | [] => false
  | c :: rest => if c = sep then true else hasChar sep rest

/-- Split a character list on a separator character; always returns at least
one (possibly empty) part, mirroring Python's `str.split`. -/
def splitOnChar (sep : Char) : List Char → List (List Char)
  | [] => [[]]
  | c :: rest =>
    if c = sep then [] :: splitOnChar sep rest
    else
      match splitOnChar sep rest with
      | [] => [[c]]
      | l :: ls => (c :: l) :: ls

/-- Join parts with a separator character; inverse of `splitOnChar`. -/
def joinSep (sep : Char) : List (List Char) → List Char
  | [] => []
  | [l] => l
  | l :: ls => l ++ sep :: joinSep sep ls

/-- First-match lookup in an association list, used to model both the
relational table keyed by path and the object store keyed by (bucket, key). -/
def lookupKV {α β : Type} [DecidableEq α] (a : α) : List (α × β) → Option β
  | [] => none
  | kv :: rest => if kv.1 = a then some kv.2 else lookupKV a rest

/-- Modelled from the spec: PathModel normalization (missing from src; only
tests and examples are present).  A caller-supplied path is normalized to the
slash-prefixed VirtualPath form; a path given without a leading slash gains
one, as pinned by the integration tests (writing under the raw name makes the
file visible as the slash-prefixed path). -/
def normalizePath (raw : String) : String :=
  if raw.data.head? = some '/' then raw else String.mk ('/' :: raw.data)

/-- A prefix denoting a directory always carries a trailing slash. -/
def dirSlash (p : String) : String :=
  if p.data.getLast? = some '/' then p else String.mk (p.data ++ ['/'])

/-- Modelled from the spec: ContentCodec encode — the persisted structured
payload stores the content as an ordered array of lines, split on newline. -/
def encode (text : String) : List String :=
  (splitOnChar '\n' text.data).map String.mk

/-- Modelled from the spec: ContentCodec decode — the stored line array is
joined back with newlines into the original text. -/
def decode (ls : List String) : String :=
  String.mk (joinSep '\n' (ls.map String.data))

/-- Whether `pat` occurs as a contiguous sublist (literal substring). -/
def containsSub (pat : List Char) : List Char → Bool
  | [] => pat.isEmpty
  | c :: rest => pat.isPrefixOf (c :: rest) || containsSub pat rest

/-- Fuel-driven count of non-overlapping occurrences of `pat`, scanning left
to right, as Python's `str.count` does for a nonempty pattern. -/
def countOccurAux (pat : List Char) : Nat → List Char → Nat
  | 0, _ => 0
  | _ + 1, [] => 0
  | fuel + 1, c :: rest =>
    if !pat.isEmpty && pat.isPrefixOf (c :: rest) then
      1 + countOccurAux pat fuel (rest.drop (pat.length - 1))
    else countOccurAux pat fuel rest

/-- Count of non-overlapping occurrences of `pat` in `s`. -/
def countOccur (pat s : List Char) : Nat := countOccurAux pat s.length s

/-- Fuel-driven replacement of every non-overlapping occurrence of `pat`
by `sub`, scanning left to right, as Python's `str.replace`. -/
def replaceAllAux (pat sub : List Char) : Nat → List Char → List Char
  | 0, s => s
  | _ + 1, [] => []
  | fuel + 1, c :: rest =>
    if !pat.isEmpty && pat.isPrefixOf (c :: rest) then
      sub ++ replaceAllAux pat sub fuel (rest.drop (pat.length - 1))
    else c :: replaceAllAux pat sub fuel rest

/-- Replace every non-overlapping occurrence of `pat` by `sub` in `s`. -/
def replaceAllStr (pat sub s : String) : String :=
  String.mk (replaceAllAux pat.data sub.data s.data.length s.data)

/-- Result of a `write` operation: the caller's path echoed back, an optional
error message, and the number of bytes written (modelled as characters). -/
structure WriteResult where
  path : String
  error : Option String
  bytes_written : Nat
deriving DecidableEq

/-- Result of an `edit` operation: path, optional error message, and the
number of replaced occurrences. -/
structure EditResult where
  path : String
  error : Option String
  occurrences : Nat
deriving DecidableEq

/-- A directory-listing or glob entry: path, synthesized-directory flag and
size (modelled as character count; directories report zero). -/
structure ListEntry where
  path : String
  is_directory : Bool
  size : Nat
deriving DecidableEq

/-- A grep hit: file path, 1-based line number, and the matching line. -/
structure GrepMatch where
  path : String
  line : Nat
  text : String
deriving DecidableEq

/-- The virtual file store: an association of normalized virtual paths to
file content text.  Both backends present this same logical view. -/
abbrev Store := List (String × String)

/-- Sentinel message embedded in `read` output for a missing file, exactly as
asserted by the unit tests of both backends. -/
def notFoundMsg (raw : String) : String :=
  "Error: File '" ++ raw ++ "' not found"

/-- Error message reported by `write` on an existing path; the unit tests
branch on the substring "already exists". -/
def alreadyExistsMsg (raw : String) : String :=
  "Error: File '" ++ raw ++ "' already exists"

/-- Error message reported by `edit` when the target string never occurs. -/
def noMatchMsg (old : String) : String :=
  "Error: String not found in file: '" ++ old ++ "'"

/-- Error message reported by `edit` when the target string occurs more than
once and replace_all was not requested. -/
def ambiguousMsg (old : String) : String :=
  "Error: String '" ++ old ++ "' appears multiple times in file; use replace_all"

/-- Number each line, rendering line `i` through `fmt`, continuing with
`i + 1` for the tail. -/
def fmtLinesFrom (fmt : Nat → List Char → List Char) (i : Nat) :
    List (List Char) → List (List Char)
  | [] => []
  | l :: ls => fmt i l :: fmtLinesFrom fmt (i + 1) ls

/-- Line prefix format of the object-store backend's `read`: the unit test
pins the shape via the substring "1 | line1". -/
def objFmt (i : Nat) (l : List Char) : List Char :=
  natToChars i ++ (' ' :: '|' :: ' ' :: l)

/-- Line prefix format of the relational-store backend's `read`: the unit
test pins the shape via the substring "1\tline1". -/
def relFmt (i : Nat) (l : List Char) : List Char :=
  natToChars i ++ ('\t' :: l)

/-- Render stored content for `read`: split into lines, prefix each with its
1-based number in the backend's format, and join back with newlines. -/
def renderRead (fmt : Nat → List Char → List Char) (c : String) : String :=
  String.mk (joinSep '\n' (fmtLinesFrom fmt 1 (splitOnChar '\n' c.data)))

/-- Modelled from the spec: object-store backend `aread` (implementation
missing from src).  Returns the numbered content, or the not-found sentinel
string when no record exists; never raises. -/
def areadObj (st : Store) (raw : String) : String :=
  match lookupKV (normalizePath raw) st with
  | none => notFoundMsg raw
  | some c => renderRead objFmt c

/-- Modelled from the spec: relational-store backend `aread` (implementation
missing from src).  Same behaviour with the tab-separated line format. -/
def areadRel (st : Store) (raw : String) : String :=
  match lookupKV (normalizePath raw) st with
  | none => notFoundMsg raw
  | some c => renderRead relFmt c

/-- Modelled from the spec: `awrite` — create-if-absent.  On an existing
record the error field is set and the store is untouched; otherwise the
record is appended.  The result's path echoes the caller's raw input. -/
def awrite (st : Store) (raw content : String) : WriteResult × Store :=
  let p := normalizePath raw
  match lookupKV p st with
  | some _ => (⟨raw, some (alreadyExistsMsg raw), 0⟩, st)
  | none => (⟨raw, none, content.data.length⟩, st ++ [(p, content)])

/-- Replace the value stored at key `p`, leaving other entries alone. -/
def updateStore : Store → String → String → Store
  | [], _, _ => []
  | kv :: rest, p, c =>
    if kv.1 = p then (p, c) :: rest else kv :: updateStore rest p c

/-- Modelled from the spec: `aedit` — in-place substring replacement.
NotFound on a missing record; NoMatch on zero occurrences; AmbiguousMatch on
several occurrences without replace_all; otherwise replaces and reports the
occurrence count.  (Occurrence counting treats the empty target as absent.) -/
def aedit (st : Store) (raw old sub : String) (replace_all : Bool) :
    EditResult × Store :=
  let p := normalizePath raw
  match lookupKV p st with
  | none => (⟨raw, some (notFoundMsg raw), 0⟩, st)
  | some c =>
    let n := countOccur old.data c.data
    if n = 0 then (⟨raw, some (noMatchMsg old), 0⟩, st)
    else if 1 < n ∧ replace_all = false then
      (⟨raw, some (ambiguousMsg old), 0⟩, st)
    else (⟨raw, none, n⟩, updateStore st p (replaceAllStr old sub c))

/-- Listing entry synthesized for one stored record under a directory
(`pre` carries its trailing slash): a stored path with no further separator
is a file child; a deeper path contributes a synthesized directory child
named by its next segment. -/
def childEntry (pre : List Char) (p c : String) : Option ListEntry :=
  if pre.isPrefixOf p.data then
    let rest := p.data.drop pre.length
    if hasChar '/' rest then
      some ⟨String.mk (pre ++ rest.takeWhile (fun ch => ch ≠ '/') ++ ['/']), true, 0⟩
    else some ⟨p, false, c.data.length⟩
  else none

/-- Keep the first entry for each path, dropping later duplicates (several
deep paths synthesize the same directory child). -/
def dedupEntries : Nat → List ListEntry → List ListEntry
  | 0, _ => []
  | _ + 1, [] => []
  | fuel + 1, e :: es =>
    e :: dedupEntries fuel (es.filter (fun x => x.path ≠ e.path))

/-- Modelled from the spec: `als_info` — direct children of a prefix, one
level only, synthesizing directory entries by grouping stored paths at the
next separator after the prefix. -/
def als_info (st : Store) (rawPre : String) : List ListEntry :=
  let pre := (dirSlash (normalizePath rawPre)).data
  let entries := st.filterMap (fun kv => childEntry pre kv.1 kv.2)
  dedupEntries entries.length entries

/-- Fuel-driven within-segment glob match: `*` matches any run of characters
inside the segment, `?` exactly one, other characters literally
(case-sensitive). -/
def segMatchAux : Nat → List Char → List Char → Bool
  | 0, _, _ => false
  | fuel + 1, p, s =>
    match p, s with
    | [], [] => true
    | [], _ :: _ => false
    | '*' :: ps, s =>
      segMatchAux fuel ps s ||
        (match s with
         | [] => false
         | _ :: t => segMatchAux fuel ('*' :: ps) t)
    | '?' :: ps, s =>
      match s with
      | [] => false
      | _ :: t => segMatchAux fuel ps t
    | pc :: ps, s =>
      match s with
      | [] => false
      | c :: t => pc = c && segMatchAux fuel ps t

/-- Within-segment glob match with sufficient fuel. -/
def segMatch (p s : List Char) : Bool :=
  segMatchAux (p.length + s.length + 1) p s

/-- Fuel-driven segment-wise glob match: `**` matches zero or more whole
segments; any other pattern segment must match exactly one path segment. -/
def globSegsAux : Nat → List (List Char) → List (List Char) → Bool
  | 0, _, _ => false
  | fuel + 1, ps, segs =>
    match ps, segs with
    | [], [] => true
    | [], _ :: _ => false
    | p :: ps, segs =>
      if p = ['*', '*'] then
        globSegsAux fuel ps segs ||
          (match segs with
           | [] => false
           | _ :: t => globSegsAux fuel (p :: ps) t)
      else
        match segs with
        | [] => false
        | s :: t => segMatch p s && globSegsAux fuel ps t

/-- Segment-wise glob match with sufficient fuel. -/
def globSegs (ps segs : List (List Char)) : Bool :=
  globSegsAux (ps.length + segs.length + 1) ps segs

/-- Whether stored path `p` lies under directory `rootDir` (trailing slash
included) and its relative part matches the glob pattern segment-wise. -/
def globRelMatch (pat : String) (rootDir : String) (p : String) : Bool :=
  rootDir.data.isPrefixOf p.data &&
    globSegs (splitOnChar '/' pat.data)
      (splitOnChar '/' (p.data.drop rootDir.data.length))

/-- Modelled from the spec: `aglob_info` — stored files under `rawRoot`
whose relative path matches the pattern; files only, never synthesized
directories. -/
def aglob (st : Store) (pat : String) (rawRoot : String) : List ListEntry :=
  let root := dirSlash (normalizePath rawRoot)
  st.filterMap (fun kv =>
    if globRelMatch pat root kv.1 then some ⟨kv.1, false, kv.2.data.length⟩
    else none)

/-- Pair each line with its 1-based number, counting from `i`. -/
def numberFrom (i : Nat) : List (List Char) → List (Nat × List Char)
  | [] => []
  | l :: ls => (i, l) :: numberFrom (i + 1) ls

/-- Whether a stored path lies under the optional search root. -/
def underRoot (pre : Option String) (p : String) : Bool :=
  match pre with
  | none => true
  | some r => (dirSlash (normalizePath r)).data.isPrefixOf p.data

/-- Whether a stored path satisfies the optional file glob, matched relative
to the search root (the whole store when no root is given). -/
def fileGlobOk (g : Option String) (pre : Option String) (p : String) : Bool :=
  match g with
  | none => true
  | some pat =>
    globRelMatch pat
      (match pre with
       | none => dirSlash (normalizePath "/")
       | some r => dirSlash (normalizePath r)) p

/-- All grep hits inside one file: every line containing the query as a
literal substring, tagged with its 1-based line number. -/
def grepFile (q : List Char) (p : String) (c : String) : List GrepMatch :=
  (numberFrom 1 (splitOnChar '\n' c.data)).filterMap
    (fun e => if containsSub q e.2 then some ⟨p, e.1, String.mk e.2⟩ else none)

/-- Modelled from the spec: `agrep_raw` — literal-substring search per line
across every stored file under the optional root satisfying the optional
file glob; returns an empty sequence when nothing matches. -/
def agrep (st : Store) (q : String) (pre g : Option String) : List GrepMatch :=
  st.flatMap (fun kv =>
    if underRoot pre kv.1 && fileGlobOk g pre kv.1 then grepFile q.data kv.1 kv.2
    else [])

/-- Connection configuration of the object-store backend: bucket name and
key prefix, as in S3Config. -/
structure S3Config where
  bucket : String
  prefixDir : String
deriving DecidableEq

/-- The object store itself: an association of (bucket, key) to object body
text, as addressed by get_object/put_object/head_object. -/
abbrev S3Store := List ((String × String) × String)

/-- Physical key of a virtual path in the object store: the configured
prefix concatenated with the normalized path. -/
def s3Key (cfg : S3Config) (raw : String) : String :=
  cfg.prefixDir ++ normalizePath raw

/-- Fetch an object body by bucket and key (get_object / head_object). -/
def s3Get (st : S3Store) (b k : String) : Option String :=
  lookupKV (b, k) st

/-- Modelled from the spec: object-store `aread` through the physical key
mapping — fetches exactly the object at key prefix + path in the configured
bucket. -/
def s3ReadKeyed (cfg : S3Config) (st : S3Store) (raw : String) : String :=
  match s3Get st cfg.bucket (s3Key cfg raw) with
  | none => notFoundMsg raw
  | some c => renderRead objFmt c

/-- Modelled from the spec: object-store `awrite` through the physical key
mapping — a head_object existence probe precedes the put; on success exactly
one object is stored, at key prefix + path in the configured bucket. -/
def s3WriteKeyed (cfg : S3Config) (st : S3Store) (raw content : String) :
    WriteResult × S3Store :=
  if (s3Get st cfg.bucket (s3Key cfg raw)).isSome then
    (⟨raw, some (alreadyExistsMsg raw), 0⟩, st)
  else
    (⟨raw, none, content.data.length⟩,
      st ++ [((cfg.bucket, s3Key cfg raw), content)])

theorem lookupKV_append_of_none {α β : Type} [DecidableEq α] (a : α)
    (l₁ l₂ : List (α × β)) (h : lookupKV a l₁ = none) :
    lookupKV a (l₁ ++ l₂) = lookupKV a l₂ := by
  induction l₁ with
  | nil => rfl
  | cons kv rest ih =>
    by_cases hk : kv.1 = a
    · simp [lookupKV, hk] at h
    · simp only [lookupKV, hk, if_false, List.cons_append] at h ⊢
      exact ih h

theorem lookupKV_append_singleton_ne {α β : Type} [DecidableEq α] (a b : α)
    (v : β) (l : List (α × β)) (h : b ≠ a) :
    lookupKV a (l ++ [(b, v)]) = lookupKV a l := by
  induction l with
  | nil => simp [lookupKV, h]
  | cons kv rest ih =>
    by_cases hk : kv.1 = a
    · simp [lookupKV, hk]
    · simp only [List.cons_append, lookupKV, hk, if_false]
      exact ih

theorem lookupKV_singleton {α β : Type} [DecidableEq α] (a : α) (v : β) :
    lookupKV a [(a, v)] = some v := by
  simp [lookupKV]

theorem splitOnChar_ne_nil (sep : Char) (x : List Char) :
    splitOnChar sep x ≠ [] := by
  cases x with
  | nil => simp [splitOnChar]
  | cons c rest =>
    by_cases hc : c = sep
    · simp [splitOnChar, hc]
    · simp only [splitOnChar, hc, if_false]
      cases splitOnChar sep rest <;> simp

theorem joinSep_splitOnChar (sep : Char) (x : List Char) :
    joinSep sep (splitOnChar sep x) = x := by
  induction x with
  | nil => rfl
  | cons c rest ih =>
    by_cases hc : c = sep
    · subst hc
      simp only [splitOnChar, if_pos rfl]
      rcases hs : splitOnChar c rest with _ | ⟨l, ls⟩
      · exact absurd hs (splitOnChar_ne_nil c rest)
      · rw [hs] at ih
        simp only [joinSep]
        rw [ih]
        simp
    · simp only [splitOnChar, hc, if_false]
      rcases hs : splitOnChar sep rest with _ | ⟨l, ls⟩
      · exact absurd hs (splitOnChar_ne_nil sep rest)
      · rw [hs] at ih
        cases ls with
        | nil => simp only [joinSep] at ih ⊢; rw [ih]
        | cons l' ls' =>
          simp only [joinSep] at ih ⊢
          rw [List.cons_append, ih]

theorem hasChar_eq_false_cons (sep c : Char) (l : List Char)
    (h : hasChar sep (c :: l) = false) : c ≠ sep ∧ hasChar sep l = false := by
  by_cases hc : c = sep
  · simp [hasChar, hc] at h
  · simpa [hasChar, hc] using h

theorem splitOnChar_mem_no_sep (sep : Char) (x : List Char) :
    ∀ l ∈ splitOnChar sep x, hasChar sep l = false := by
  induction x with
  | nil =>
    intro l hl
    simp [splitOnChar] at hl
    simp [hl, hasChar]
  | cons c rest ih =>
    intro l hl
    by_cases hc : c = sep
    · have hsp : splitOnChar sep (c :: rest) = [] :: splitOnChar sep rest := by
        simp [splitOnChar, hc]
      rw [hsp, List.mem_cons] at hl
      rcases hl with hl | hl
      · simp [hl, hasChar]
      · exact ih l hl
    · simp only [splitOnChar, hc, if_false] at hl
      rcases hs : splitOnChar sep rest with _ | ⟨l₀, ls⟩
      · exact absurd hs (splitOnChar_ne_nil sep rest)
      · rw [hs] at hl
        rw [List.mem_cons] at hl
        rcases hl with hl | hl
        · subst hl
          have h₀ : hasChar sep l₀ = false := ih l₀ (by rw [hs]; exact List.mem_cons_self _ _)
          simp [hasChar, hc, h₀]
        · exact ih l (by rw [hs]; exact List.mem_cons_of_mem _ hl)

theorem splitOnChar_of_no_sep (sep : Char) (l : List Char)
    (h : hasChar sep l = false) : splitOnChar sep l = [l] := by
  induction l with
  | nil => rfl
  | cons c rest ih =>
    obtain ⟨hc, hrest⟩ := hasChar_eq_false_cons sep c rest h
    simp only [splitOnChar, hc, if_false]
    rw [ih hrest]

theorem splitOnChar_append_sep (sep : Char) (l y : List Char)
    (h : hasChar sep l = false) :
    splitOnChar sep (l ++ sep :: y) = l :: splitOnChar sep y := by
  induction l with
  | nil => simp [splitOnChar]
  | cons c rest ih =>
    obtain ⟨hc, hrest⟩ := hasChar_eq_false_cons sep c rest h
    have hstep : (c :: rest) ++ sep :: y = c :: (rest ++ sep :: y) := rfl
    rw [hstep]
    simp only [splitOnChar, hc, if_false]
    rw [ih hrest]

theorem splitOnChar_joinSep (sep : Char) (ls : List (List Char))
    (hne : ls ≠ []) (h : ∀ l ∈ ls, hasChar sep l = false) :
    splitOnChar sep (joinSep sep ls) = ls := by
  induction ls with
  | nil => exact absurd rfl hne
  | cons l rest ih =>
    cases rest with
    | nil =>
      simp only [joinSep]
      exact splitOnChar_of_no_sep sep l (h l (List.mem_cons_self _ _))
    | cons l' rest' =>
      simp only [joinSep]
      rw [splitOnChar_append_sep sep l _ (h l (List.mem_cons_self _ _))]
      rw [ih (by simp) (fun x hx => h x (List.mem_cons_of_mem _ hx))]

theorem digitChar_ne_nl (n : Nat) : digitChar n ≠ '\n' := by
  unfold digitChar
  repeat' split
  all_goals decide

theorem hasChar_append (sep : Char) (a b : List Char) :
    hasChar sep (a ++ b) = (hasChar sep a || hasChar sep b) := by
  induction a with
  | nil => simp [hasChar]
  | cons c rest ih =>
    by_cases hc : c = sep <;> simp [hasChar, hc, ih]

theorem natToCharsAux_no_nl (fuel n : Nat) (acc : List Char)
    (hacc : hasChar '\n' acc = false) :
    hasChar '\n' (natToCharsAux fuel n acc) = false := by
  induction fuel generalizing n acc with
  | zero => exact hacc
  | succ fuel ih =>
    simp only [natToCharsAux]
    split
    · simp [hasChar, digitChar_ne_nl n, hacc]
    · exact ih (n / 10) _ (by simp [hasChar, digitChar_ne_nl (n % 10), hacc])

theorem natToChars_no_nl (n : Nat) : hasChar '\n' (natToChars n) = false :=
  natToCharsAux_no_nl (n + 1) n [] rfl

theorem objFmt_no_nl (i : Nat) (l : List Char) (h : hasChar '\n' l = false) :
    hasChar '\n' (objFmt i l) = false := by
  simp [objFmt, hasChar_append, natToChars_no_nl, hasChar, h]

theorem relFmt_no_nl (i : Nat) (l : List Char) (h : hasChar '\n' l = false) :
    hasChar '\n' (relFmt i l) = false := by
  simp [relFmt, hasChar_append, natToChars_no_nl, hasChar, h]

theorem fmtLinesFrom_ne_nil (fmt : Nat → List Char → List Char) (i : Nat)
    (ls : List (List Char)) (h : ls ≠ []) : fmtLinesFrom fmt i ls ≠ [] := by
  cases ls with
  | nil => exact absurd rfl h
  | cons l rest => simp [fmtLinesFrom]

theorem fmtLinesFrom_mem_no_nl (fmt : Nat → List Char → List Char)
    (hfmt : ∀ i l, hasChar '\n' l = false → hasChar '\n' (fmt i l) = false)
    (i : Nat) (ls : List (List Char)) (hls : ∀ l ∈ ls, hasChar '\n' l = false) :
    ∀ l ∈ fmtLinesFrom fmt i ls, hasChar '\n' l = false := by
  induction ls generalizing i with
  | nil => intro l hl; simp [fmtLinesFrom] at hl
  | cons l₀ rest ih =>
    intro l hl
    simp only [fmtLinesFrom, List.mem_cons] at hl
    rcases hl with hl | hl
    · subst hl
      exact hfmt i l₀ (hls l₀ (List.mem_cons_self _ _))
    · exact ih (i + 1) (fun x hx => hls x (List.mem_cons_of_mem _ hx)) l hl

theorem fmtLinesFrom_getElem (fmt : Nat → List Char → List Char) (i k : Nat)
    (ls : List (List Char)) :
    (fmtLinesFrom fmt i ls)[k]? = Option.map (fmt (i + k)) ls[k]? := by
  induction ls generalizing i k with
  | nil => simp [fmtLinesFrom]
  | cons l rest ih =>
    cases k with
    | zero => simp [fmtLinesFrom]
    | succ k =>
      simp only [fmtLinesFrom, List.getElem?_cons_succ]
      rw [ih (i + 1) k]
      have harith : i + 1 + k = i + (k + 1) := by omega
      rw [harith]

theorem containsSub_iff (pat s : List Char) :
    containsSub pat s = true ↔ ∃ l r, s = l ++ pat ++ r := by
  induction s with
  | nil =>
    simp only [containsSub, List.isEmpty_iff]
    constructor
    · intro h
      exact ⟨[], [], by simp [h]⟩
    · rintro ⟨l, r, hlr⟩
      rcases List.append_eq_nil.mp (List.append_eq_nil.mp hlr.symm).1 with ⟨_, h2⟩
      exact h2
  | cons c rest ih =>
    simp only [containsSub, Bool.or_eq_true]
    constructor
    · rintro (h | h)
      · obtain ⟨t, ht⟩ := List.isPrefixOf_iff_prefix.mp h
        exact ⟨[], t, by simp [ht.symm]⟩
      · obtain ⟨l, r, hlr⟩ := ih.mp h
        exact ⟨c :: l, r, by simp [hlr]⟩
    · rintro ⟨l, r, hlr⟩
      cases l with
      | nil =>
        left
        exact List.isPrefixOf_iff_prefix.mpr ⟨r, by simpa using hlr.symm⟩
      | cons c' l' =>
        right
        simp only [List.cons_append, List.cons.injEq] at hlr
        exact ih.mpr ⟨l', r, hlr.2⟩

theorem numberFrom_mem (i : Nat) (ls : List (List Char)) (n : Nat) (t : List Char) :
    (n, t) ∈ numberFrom i ls ↔
      ∃ k, ∃ hk : k < ls.length, n = i + k ∧ ls.get ⟨k, hk⟩ = t := by
  induction ls generalizing i with
  | nil => simp [numberFrom]
  | cons l rest ih =>
    simp only [numberFrom, List.mem_cons, Prod.mk.injEq, ih (i + 1)]
    constructor
    · rintro (⟨hn, ht⟩ | ⟨k, hk, hn, ht⟩)
      · exact ⟨0, by simp, by omega, by simpa using ht.symm⟩
      · exact ⟨k + 1, by simpa using hk, by omega, by simpa using ht⟩
    · rintro ⟨k, hk, hn, ht⟩
      cases k with
      | zero => exact Or.inl ⟨by omega, by simpa using ht.symm⟩
      | succ k =>
        exact Or.inr ⟨k, by simpa using hk, by omega, by simpa using ht⟩

theorem mem_of_mem_dedupEntries (fuel : Nat) (l : List ListEntry) (x : ListEntry)
    (hx : x ∈ dedupEntries fuel l) : x ∈ l := by
  induction fuel generalizing l with
  | zero => simp [dedupEntries] at hx
  | succ fuel ih =>
    cases l with
    | nil => simp [dedupEntries] at hx
    | cons e es =>
      simp only [dedupEntries, List.mem_cons] at hx
      rcases hx with hx | hx
      · exact hx ▸ List.mem_cons_self _ _
      · exact List.mem_cons_of_mem _ (List.mem_of_mem_filter (ih _ hx))

theorem dedupEntries_path_complete (fuel : Nat) (l : List ListEntry)
    (e : ListEntry) (he : e ∈ l) (hfuel : l.length ≤ fuel) :
    ∃ e' ∈ dedupEntries fuel l, e'.path = e.path := by
  induction fuel generalizing l with
  | zero =>
    cases l with
    | nil => simp at he
    | cons _ _ => simp at hfuel
  | succ fuel ih =>
    cases l with
    | nil => simp at he
    | cons e₀ es =>
      rw [List.mem_cons] at he
      by_cases hp : e.path = e₀.path
      · exact ⟨e₀, List.mem_cons_self _ _, hp.symm⟩
      · rcases he with he | he
        · exact absurd (congrArg ListEntry.path he) hp
        · have hmem : e ∈ es.filter (fun x => x.path ≠ e₀.path) :=
            List.mem_filter.mpr ⟨he, by simpa using hp⟩
          have hlen : (es.filter (fun x => x.path ≠ e₀.path)).length ≤ fuel := by
            have := List.length_filter_le (fun x => x.path ≠ e₀.path) es
            simp only [List.length_cons] at hfuel
            omega
          obtain ⟨e', he', hpe⟩ := ih _ hmem hlen
          exact ⟨e', List.mem_cons_of_mem _ he', hpe⟩

theorem renderRead_split (fmt : Nat → List Char → List Char)
    (hfmt : ∀ i l, hasChar '\n' l = false → hasChar '\n' (fmt i l) = false)
    (c : String) :
    splitOnChar '\n' (renderRead fmt c).data
      = fmtLinesFrom fmt 1 (splitOnChar '\n' c.data) := by
  have hdata : (renderRead fmt c).data
      = joinSep '\n' (fmtLinesFrom fmt 1 (splitOnChar '\n' c.data)) := rfl
  rw [hdata]
  exact splitOnChar_joinSep '\n' _
    (fmtLinesFrom_ne_nil fmt 1 _ (splitOnChar_ne_nil '\n' c.data))
    (fmtLinesFrom_mem_no_nl fmt hfmt 1 _ (splitOnChar_mem_no_sep '\n' c.data))

theorem takeWhile_no_sep (sep : Char) (l : List Char) :
    hasChar sep (l.takeWhile (fun ch => ch ≠ sep)) = false := by
  induction l with
  | nil => rfl
  | cons c rest ih =>
    by_cases hc : c = sep
    · simp [List.takeWhile, hc, hasChar]
    · simp only [List.takeWhile]
      have hd : decide (c ≠ sep) = true := by simp [hc]
      rw [hd]
      show hasChar sep (c :: List.takeWhile (fun ch => decide (ch ≠ sep)) rest) = false
      simp only [hasChar, hc, if_false]
      exact ih

theorem childEntry_eq_some (pre : List Char) (p c : String) (e : ListEntry)
    (h : childEntry pre p c = some e) :
    pre.isPrefixOf p.data = true ∧
      ((hasChar '/' (p.data.drop pre.length) = true ∧
          e = ⟨String.mk (pre ++ (p.data.drop pre.length).takeWhile (fun ch => ch ≠ '/')
                ++ ['/']), true, 0⟩) ∨
        (hasChar '/' (p.data.drop pre.length) = false ∧ e = ⟨p, false, c.data.length⟩)) := by
  by_cases hpre : pre.isPrefixOf p.data
  · refine ⟨hpre, ?_⟩
    by_cases hdeep : hasChar '/' (p.data.drop pre.length) = true
    · left
      refine ⟨hdeep, ?_⟩
      simp only [childEntry, hpre, if_true, hdeep] at h
      exact (Option.some.injEq _ _ ▸ h).symm
    · right
      rw [Bool.not_eq_true] at hdeep
      refine ⟨hdeep, ?_⟩
      simp only [childEntry, hpre, if_true, hdeep] at h
      simp at h
      exact h.symm
  · rw [Bool.not_eq_true] at hpre
    simp [childEntry, hpre] at h

theorem als_info_mem_exists (st : Store) (rawPre : String) (e : ListEntry)
    (he : e ∈ als_info st rawPre) :
    ∃ p c, (p, c) ∈ st ∧
      childEntry (dirSlash (normalizePath rawPre)).data p c = some e := by
  have hmem := mem_of_mem_dedupEntries _ _ _ he
  obtain ⟨kv, hkv, hce⟩ := List.mem_filterMap.mp hmem
  exact ⟨kv.1, kv.2, hkv, hce⟩

/-- Claim C7: for every UTF-8 text, including embedded newlines and empty
content, decode (encode x) = x; and reading back immediately after a write
yields exactly the content that was written. -/
theorem c7_codec_roundtrip : ∀ x : String,
    decode (encode x) = x ∧
    lookupKV (normalizePath "f") ((awrite [] "f" x).2) = some x := by
  intro x
  constructor
  · show String.mk (joinSep '\n' (((splitOnChar '\n' x.data).map String.mk).map String.data)) = x
    rw [List.map_map]
    have hmm : (String.data ∘ String.mk) = id := rfl
    rw [hmm, List.map_id, joinSep_splitOnChar]
  · have h : lookupKV (normalizePath "f") ([] : Store) = none := rfl
    simp only [awrite, h]
    rw [lookupKV_append_of_none _ _ _ h]
    exact lookupKV_singleton _ _

/-- Claim C2 (amended): for a path with no stored record, read reports
NotFound by embedding the sentinel string inside the returned text itself —
both backends return exactly the not-found message, which callers detect by
substring matching; the operation never raises and the read result carries no
structured error field. -/
theorem c2_read_notfound_sentinel : ∀ (st : Store) (raw : String),
    lookupKV (normalizePath raw) st = none →
    areadObj st raw = notFoundMsg raw ∧ areadRel st raw = notFoundMsg raw ∧
    containsSub "not found".data (areadObj st raw).data = true := by
  intro st raw h
  refine ⟨by simp [areadObj, h], by simp [areadRel, h], ?_⟩
  simp only [areadObj, h]
  refine (containsSub_iff _ _).mpr ⟨("Error: File '" ++ raw ++ "' ").data, [], ?_⟩
  show (("Error: File '" ++ raw) ++ "' not found").data = _
  rw [String.data_append, String.data_append]
  simp

/-- Claim C2 counterexample: the NotFound report for a missing path is the
sentinel message embedded in the returned text, for both backends — the
claim's assertion that the error is never signalled inside the returned text
fails on the modelled code. -/
theorem c2_counterexample :
    areadObj [] "nonexistent.txt" = "Error: File 'nonexistent.txt' not found" ∧
    areadRel [] "nonexistent.txt" = "Error: File 'nonexistent.txt' not found" ∧
    containsSub "Error: File 'nonexistent.txt' not found".data
      (areadObj [] "nonexistent.txt").data = true := by
  refine ⟨by decide, by decide, by decide⟩

/-- Witness for C2's amended theorem at a concrete store and path. -/
theorem c2_witness :
    areadObj [("/x", "y")] "gone.txt" = notFoundMsg "gone.txt" ∧
    areadRel [("/x", "y")] "gone.txt" = notFoundMsg "gone.txt" ∧
    containsSub "not found".data (areadObj [("/x", "y")] "gone.txt").data = true :=
  c2_read_notfound_sentinel [("/x", "y")] "gone.txt" (by decide)

/-- Claim C3: write on an existing path reports AlreadyExists through the
result's error field without raising and leaves the store unchanged; write
on a fresh path creates the record and reports no error. -/
theorem c3_write_create_if_absent : ∀ (st : Store) (raw c₀ c₁ : String),
    (lookupKV (normalizePath raw) st = some c₀ →
      (awrite st raw c₁).1.error = some (alreadyExistsMsg raw) ∧
      (awrite st raw c₁).2 = st) ∧
    (lookupKV (normalizePath raw) st = none →
      (awrite st raw c₁).1.error = none ∧
      (awrite st raw c₁).2 = st ++ [(normalizePath raw, c₁)] ∧
      lookupKV (normalizePath raw) ((awrite st raw c₁).2) = some c₁) := by
  intro st raw c₀ c₁
  constructor
  · intro h
    exact ⟨by simp [awrite, h], by simp [awrite, h]⟩
  · intro h
    refine ⟨by simp [awrite, h], by simp [awrite, h], ?_⟩
    simp only [awrite, h]
    rw [lookupKV_append_of_none _ _ _ h]
    exact lookupKV_singleton _ _

/-- Witness for C3 at the concrete stores of the unit tests: an occupied
path and a fresh path. -/
theorem c3_witness :
    ((awrite [("/exists.txt", "old")] "exists.txt" "content").1.error
        = some (alreadyExistsMsg "exists.txt") ∧
      (awrite [("/exists.txt", "old")] "exists.txt" "content").2
        = [("/exists.txt", "old")]) ∧
    ((awrite [] "new.txt" "content").1.error = none ∧
      (awrite [] "new.txt" "content").2 = [] ++ [(normalizePath "new.txt", "content")] ∧
      lookupKV (normalizePath "new.txt") ((awrite [] "new.txt" "content").2)
        = some "content") :=
  ⟨(c3_write_create_if_absent [("/exists.txt", "old")] "exists.txt" "old" "content").1
      (by decide),
    (c3_write_create_if_absent [] "new.txt" "old" "content").2 (by decide)⟩

/-- Claim C1 (amended): for every stored file both backends return the
file's lines each prefixed with its 1-based number, but in different
formats — the object-store backend renders `N | line` while the
relational-store backend renders `N<TAB>line` — so the returned text is not
identical across backends. -/
theorem c1_read_numbered_lines : ∀ (st : Store) (raw c : String),
    lookupKV (normalizePath raw) st = some c →
    ∀ k : Nat,
      (splitOnChar '\n' (areadObj st raw).data)[k]?
          = Option.map (objFmt (1 + k)) (splitOnChar '\n' c.data)[k]? ∧
      (splitOnChar '\n' (areadRel st raw).data)[k]?
          = Option.map (relFmt (1 + k)) (splitOnChar '\n' c.data)[k]? := by
  intro st raw c h k
  constructor
  · have hro : areadObj st raw = renderRead objFmt c := by simp [areadObj, h]
    rw [hro, renderRead_split objFmt objFmt_no_nl, fmtLinesFrom_getElem]
  · have hrr : areadRel st raw = renderRead relFmt c := by simp [areadRel, h]
    rw [hrr, renderRead_split relFmt relFmt_no_nl, fmtLinesFrom_getElem]

/-- Claim C1 counterexample: with the same stored content the two backends
return different text, refuting the cross-backend identical-text clause. -/
theorem c1_counterexample :
    areadObj [("/f.txt", "line1\nline2")] "f.txt"
      ≠ areadRel [("/f.txt", "line1\nline2")] "f.txt" := by
  decide

/-- Witness for C1's amended theorem at a concrete store, line 0. -/
theorem c1_witness :
    (splitOnChar '\n' (areadObj [("/f.txt", "a\nb")] "f.txt").data)[0]?
        = Option.map (objFmt (1 + 0)) (splitOnChar '\n' ("a\nb" : String).data)[0]? ∧
    (splitOnChar '\n' (areadRel [("/f.txt", "a\nb")] "f.txt").data)[0]?
        = Option.map (relFmt (1 + 0)) (splitOnChar '\n' ("a\nb" : String).data)[0]? :=
  c1_read_numbered_lines [("/f.txt", "a\nb")] "f.txt" "a\nb" (by decide) 0

/-- Claim C4: edit dispatch — NotFound on a missing path; NoMatch on zero
occurrences; AmbiguousMatch (content unchanged) on several occurrences
without replace_all; replacement with occurrences = 1 on a unique
occurrence; replacement of all N occurrences with occurrences = N under
replace_all. -/
theorem c4_edit_dispatch : ∀ (st : Store) (raw old sub : String) (ra : Bool),
    (lookupKV (normalizePath raw) st = none →
      aedit st raw old sub ra = (⟨raw, some (notFoundMsg raw), 0⟩, st)) ∧
    ∀ c, lookupKV (normalizePath raw) st = some c →
      (countOccur old.data c.data = 0 →
        aedit st raw old sub ra = (⟨raw, some (noMatchMsg old), 0⟩, st)) ∧
      (∀ n, countOccur old.data c.data = n → 1 < n → ra = false →
        aedit st raw old sub ra = (⟨raw, some (ambiguousMsg old), 0⟩, st)) ∧
      (countOccur old.data c.data = 1 →
        aedit st raw old sub ra
          = (⟨raw, none, 1⟩,
              updateStore st (normalizePath raw) (replaceAllStr old sub c))) ∧
      (∀ n, countOccur old.data c.data = n → 1 ≤ n → ra = true →
        aedit st raw old sub ra
          = (⟨raw, none, n⟩,
              updateStore st (normalizePath raw) (replaceAllStr old sub c))) := by
  intro st raw old sub ra
  constructor
  · intro h
    simp [aedit, h]
  · intro c h
    refine ⟨?_, ?_, ?_, ?_⟩
    · intro h0
      simp [aedit, h, h0]
    · intro n hn hlt hra
      subst hra
      have hne : n ≠ 0 := by omega
      simp [aedit, h, hn, hne, hlt]
    · intro h1
      simp [aedit, h, h1]
    · intro n hn hge hra
      subst hra
      have hne : n ≠ 0 := by omega
      simp [aedit, h, hn, hne]

/-- Witness for C4 exercising the ambiguous, replace-all and missing-path
branches at concrete inputs. -/
theorem c4_witness :
    (aedit [("/h.txt", "aXbXc")] "h.txt" "X" "Y" true
        = (⟨"h.txt", none, 2⟩,
            updateStore [("/h.txt", "aXbXc")] (normalizePath "h.txt")
              (replaceAllStr "X" "Y" "aXbXc"))) ∧
    (aedit [("/h.txt", "aXbXc")] "h.txt" "X" "Y" false
        = (⟨"h.txt", some (ambiguousMsg "X"), 0⟩, [("/h.txt", "aXbXc")])) ∧
    (aedit [("/h.txt", "Hello World")] "h.txt" "World" "You" false
        = (⟨"h.txt", none, 1⟩,
            updateStore [("/h.txt", "Hello World")] (normalizePath "h.txt")
              (replaceAllStr "World" "You" "Hello World"))) ∧
    (aedit [] "h.txt" "X" "Y" false = (⟨"h.txt", some (notFoundMsg "h.txt"), 0⟩, [])) :=
  ⟨(((c4_edit_dispatch [("/h.txt", "aXbXc")] "h.txt" "X" "Y" true).2 "aXbXc"
        (by decide)).2.2.2) 2 (by decide) (by decide) rfl,
    (((c4_edit_dispatch [("/h.txt", "aXbXc")] "h.txt" "X" "Y" false).2 "aXbXc"
        (by decide)).2.1) 2 (by decide) (by decide) rfl,
    (((c4_edit_dispatch [("/h.txt", "Hello World")] "h.txt" "World" "You" false).2
        "Hello World" (by decide)).2.2.1) (by decide),
    (c4_edit_dispatch [] "h.txt" "X" "Y" false).1 (by decide)⟩

/-- Claim C10: write accepts a path without a leading slash; the result's
path field echoes the caller's raw input while the record is stored, listed
and grepped under the slash-prefixed normalized form. -/
theorem c10_relative_path_normalization : ∀ (st : Store) (raw c : String),
    raw.data.head? ≠ some '/' →
    ((awrite st raw c).1.path = raw ∧
      normalizePath raw = String.mk ('/' :: raw.data) ∧
      (lookupKV (String.mk ('/' :: raw.data)) st = none →
        (awrite st raw c).2 = st ++ [(String.mk ('/' :: raw.data), c)])) ∧
    ((awrite [] "hello.txt" "Hello World").1.path = "hello.txt" ∧
      (als_info ((awrite [] "hello.txt" "Hello World").2) "/").map ListEntry.path
        = ["/hello.txt"] ∧
      (agrep ((awrite [] "hello.txt" "Hello World").2) "Hello" none none).map
          GrepMatch.path = ["/hello.txt"]) := by
  intro st raw c h
  have hnorm : normalizePath raw = String.mk ('/' :: raw.data) := by
    simp [normalizePath, h]
  refine ⟨⟨?_, hnorm, ?_⟩, by decide, by decide, by decide⟩
  · rcases hl : lookupKV (normalizePath raw) st with _ | c₀ <;> simp [awrite, hl]
  · intro hnone
    rw [← hnorm] at hnone ⊢
    simp [awrite, hnone]

/-- Witness for C10 at the integration test's concrete input. -/
theorem c10_witness :
    ((awrite [] "hello.txt" "Hello World").1.path = "hello.txt" ∧
      normalizePath "hello.txt" = String.mk ('/' :: ("hello.txt" : String).data) ∧
      (lookupKV (String.mk ('/' :: ("hello.txt" : String).data)) ([] : Store) = none →
        (awrite [] "hello.txt" "Hello World").2
          = [] ++ [(String.mk ('/' :: ("hello.txt" : String).data), "Hello World")])) ∧
    ((awrite [] "hello.txt" "Hello World").1.path = "hello.txt" ∧
      (als_info ((awrite [] "hello.txt" "Hello World").2) "/").map ListEntry.path
        = ["/hello.txt"] ∧
      (agrep ((awrite [] "hello.txt" "Hello World").2) "Hello" none none).map
          GrepMatch.path = ["/hello.txt"]) :=
  c10_relative_path_normalization [] "hello.txt" "Hello World" (by decide)

/-- Claim C9: the object-store backend persists the file for a virtual path
as exactly one object, in the configured bucket, at key = configured prefix
concatenated with the normalized path; read is a function only of the object
at that very key, and the concrete key of the unit test is reproduced. -/
theorem c9_s3_key_mapping : ∀ (cfg : S3Config) (st : S3Store) (raw c : String),
    (s3Get st cfg.bucket (s3Key cfg raw) = none →
      (s3WriteKeyed cfg st raw c).2 = st ++ [((cfg.bucket, s3Key cfg raw), c)] ∧
      s3ReadKeyed cfg ((s3WriteKeyed cfg st raw c).2) raw = renderRead objFmt c ∧
      ∀ b k, (b, k) ≠ (cfg.bucket, s3Key cfg raw) →
        s3Get ((s3WriteKeyed cfg st raw c).2) b k = s3Get st b k) ∧
    (∀ st₁ st₂ : S3Store,
      s3Get st₁ cfg.bucket (s3Key cfg raw) = s3Get st₂ cfg.bucket (s3Key cfg raw) →
      s3ReadKeyed cfg st₁ raw = s3ReadKeyed cfg st₂ raw) ∧
    s3Key ⟨"unit-test-bucket", "unit-test"⟩ "test.txt" = "unit-test/test.txt" := by
  intro cfg st raw c
  refine ⟨?_, ?_, by decide⟩
  · intro h
    have h' : lookupKV (cfg.bucket, s3Key cfg raw) st = none := h
    have hw : (s3WriteKeyed cfg st raw c).2
        = st ++ [((cfg.bucket, s3Key cfg raw), c)] := by
      simp [s3WriteKeyed, s3Get, h']
    refine ⟨hw, ?_, ?_⟩
    · rw [hw]
      simp only [s3ReadKeyed, s3Get]
      rw [lookupKV_append_of_none _ _ _ h, lookupKV_singleton]
    · intro b k hbk
      rw [hw]
      exact lookupKV_append_singleton_ne (b, k) _ c st (fun he => hbk he.symm)
  · intro st₁ st₂ hsame
    simp only [s3ReadKeyed]
    rw [hsame]

/-- Witness for C9: writing "test.txt" through the unit-test configuration
lands at key "unit-test/test.txt" in bucket "unit-test-bucket". -/
theorem c9_witness :
    (s3WriteKeyed ⟨"unit-test-bucket", "unit-test"⟩ [] "test.txt" "line1\nline2").2
        = [] ++ [(("unit-test-bucket", s3Key ⟨"unit-test-bucket", "unit-test"⟩ "test.txt"),
            "line1\nline2")] ∧
    s3ReadKeyed ⟨"unit-test-bucket", "unit-test"⟩
        ((s3WriteKeyed ⟨"unit-test-bucket", "unit-test"⟩ [] "test.txt" "line1\nline2").2)
        "test.txt" = renderRead objFmt "line1\nline2" ∧
    ∀ b k, (b, k) ≠ ("unit-test-bucket",
        s3Key ⟨"unit-test-bucket", "unit-test"⟩ "test.txt") →
      s3Get ((s3WriteKeyed ⟨"unit-test-bucket", "unit-test"⟩ [] "test.txt"
          "line1\nline2").2) b k = s3Get [] b k :=
  (c9_s3_key_mapping ⟨"unit-test-bucket", "unit-test"⟩ [] "test.txt"
    "line1\nline2").1 (by decide)

/-- Claim C5: glob returns files only — never synthesized directories —
with case-sensitive matching where `*` and `?` stay within one path segment
and `**` spans whole segments, reproducing the spec's concrete example. -/
theorem c5_glob_semantics :
    (∀ (st : Store) (pat root : String) (e : ListEntry),
      e ∈ aglob st pat root → e.is_directory = false) ∧
    (aglob [("/src/a.py", "A"), ("/src/b.py", "B"), ("/src/sub/c.py", "C")]
        "*.py" "/src").map ListEntry.path = ["/src/a.py", "/src/b.py"] ∧
    (aglob [("/src/a.py", "A"), ("/src/b.py", "B"), ("/src/sub/c.py", "C")]
        "**/*.py" "/").map ListEntry.path
      = ["/src/a.py", "/src/b.py", "/src/sub/c.py"] ∧
    (aglob [("/src/a.py", "A"), ("/src/b.py", "B"), ("/src/sub/c.py", "C")]
        "*.PY" "/src").map ListEntry.path = [] ∧
    (aglob [("/src/a.py", "A"), ("/src/b.py", "B"), ("/src/sub/c.py", "C")]
        "?.py" "/src").map ListEntry.path = ["/src/a.py", "/src/b.py"] ∧
    (aglob [("/src/a.py", "A"), ("/src/b.py", "B"), ("/src/sub/c.py", "C")]
        "*.py" "/").map ListEntry.path = [] := by
  refine ⟨?_, by decide, by decide, by decide, by decide, by decide⟩
  intro st pat root e he
  simp only [aglob] at he
  obtain ⟨kv, _, hkv⟩ := List.mem_filterMap.mp he
  by_cases hm : globRelMatch pat (dirSlash (normalizePath root)) kv.1
  · rw [if_pos hm] at hkv
    cases hkv
    rfl
  · rw [if_neg hm] at hkv
    exact absurd hkv (by simp)

/-- Witness for C5: a concrete glob entry is a file entry. -/
theorem c5_witness :
    (⟨"/src/a.py", false, 1⟩ : ListEntry).is_directory = false :=
  c5_glob_semantics.1 [("/src/a.py", "A")] "*.py" "/src" ⟨"/src/a.py", false, 1⟩
    (by decide)

theorem als_info_entry_char (st : Store) (rawPre : String) (e : ListEntry)
    (he : e ∈ als_info st rawPre) :
    (e.is_directory = true →
      ∃ seg, hasChar '/' seg = false ∧
        e.path.data = (dirSlash (normalizePath rawPre)).data ++ seg ++ ['/']) ∧
    (e.is_directory = false →
      ∃ c, (e.path, c) ∈ st ∧
        (dirSlash (normalizePath rawPre)).data.isPrefixOf e.path.data = true ∧
        hasChar '/'
          (e.path.data.drop (dirSlash (normalizePath rawPre)).data.length) = false) := by
  obtain ⟨p, c, hpc, hce⟩ := als_info_mem_exists st rawPre e he
  obtain ⟨hpre, hcases⟩ := childEntry_eq_some _ p c e hce
  rcases hcases with ⟨hdeep, hdir⟩ | ⟨hflat, hfile⟩
  · subst hdir
    constructor
    · intro _
      exact ⟨_, takeWhile_no_sep '/' _, rfl⟩
    · intro hfd
      cases hfd
  · subst hfile
    constructor
    · intro hfd
      cases hfd
    · intro _
      exact ⟨c, hpc, hpre, hflat⟩

/-- Claim C6: list returns only the direct children of the prefix — every
directory entry is the prefix extended by a single slash-free segment plus a
trailing slash, every file entry is a stored path with no separator after
the prefix; every stored file directly under the prefix appears as a file
entry; a nested stored path never appears as an entry path; and the spec's
concrete example is reproduced. -/
theorem c6_list_direct_children :
    (∀ (st : Store) (pre : String) (e : ListEntry), e ∈ als_info st pre →
      (e.is_directory = true →
        ∃ seg, hasChar '/' seg = false ∧
          e.path.data = (dirSlash (normalizePath pre)).data ++ seg ++ ['/']) ∧
      (e.is_directory = false →
        ∃ c, (e.path, c) ∈ st ∧
          (dirSlash (normalizePath pre)).data.isPrefixOf e.path.data = true ∧
          hasChar '/'
            (e.path.data.drop (dirSlash (normalizePath pre)).data.length) = false)) ∧
    (∀ (st : Store) (pre p c : String), (p, c) ∈ st →
      (dirSlash (normalizePath pre)).data.isPrefixOf p.data = true →
      hasChar '/' (p.data.drop (dirSlash (normalizePath pre)).data.length) = false →
      ∃ e ∈ als_info st pre, e.path = p ∧ e.is_directory = false) ∧
    (∀ (st : Store) (pre p c : String), (p, c) ∈ st →
      hasChar '/' (p.data.drop (dirSlash (normalizePath pre)).data.length) = true →
      p.data.getLast? ≠ some '/' →
      ∀ e ∈ als_info st pre, e.path ≠ p) ∧
    als_info [("/a.txt", "x"), ("/dir/b.txt", "y")] "/"
      = [⟨"/a.txt", false, 1⟩, ⟨"/dir/", true, 0⟩] := by
  refine ⟨fun st pre e he => als_info_entry_char st pre e he, ?_, ?_, by decide⟩
  · intro st pre p c hpc hpre hflat
    have hflat' : hasChar '/'
        (List.drop (dirSlash (normalizePath pre)).length p.data) = false := hflat
    have hce : childEntry (dirSlash (normalizePath pre)).data p c
        = some ⟨p, false, c.data.length⟩ := by
      simp [childEntry, hpre, hflat, hflat']
    have hmem : (⟨p, false, c.data.length⟩ : ListEntry) ∈
        st.filterMap (fun kv =>
          childEntry (dirSlash (normalizePath pre)).data kv.1 kv.2) :=
      List.mem_filterMap.mpr ⟨(p, c), hpc, hce⟩
    obtain ⟨e', he', hpath⟩ := dedupEntries_path_complete _ _ _ hmem le_rfl
    have he'' : e' ∈ als_info st pre := he'
    refine ⟨e', he'', hpath, ?_⟩
    by_cases hb : e'.is_directory = true
    · obtain ⟨seg, hseg, hpd⟩ := (als_info_entry_char st pre e' he'').1 hb
      rw [hpath] at hpd
      exfalso
      have hslash : hasChar '/'
          (p.data.drop (dirSlash (normalizePath pre)).data.length) = true := by
        rw [hpd, List.append_assoc, List.drop_left, hasChar_append]
        simp [hasChar]
      rw [hslash] at hflat
      cases hflat
    · simpa using hb
  · intro st pre p c hpc hdeep hlast e he hep
    by_cases hb : e.is_directory = true
    · obtain ⟨seg, hseg, hpd⟩ := (als_info_entry_char st pre e he).1 hb
      rw [hep] at hpd
      apply hlast
      rw [hpd]
      exact List.getLast?_concat _
    · obtain ⟨c', _, _, hflat'⟩ :=
        (als_info_entry_char st pre e he).2 (by simpa using hb)
      rw [hep] at hflat'
      rw [hflat'] at hdeep
      cases hdeep

/-- Witness for C6: the stored file "/a.txt" shows up as a direct file
entry of the root listing. -/
theorem c6_witness :
    ∃ e ∈ als_info [("/a.txt", "x"), ("/dir/b.txt", "y")] "/",
      e.path = "/a.txt" ∧ e.is_directory = false :=
  c6_list_direct_children.2.1 [("/a.txt", "x"), ("/dir/b.txt", "y")] "/"
    "/a.txt" "x" (by decide) (by decide) (by decide)

/-- Claim C8: grep treats the query as a literal substring (a line matches
exactly when it decomposes around the query), returns one match per matching
line with correct 1-based line numbers across every stored file under the
search root satisfying the file glob, and returns the empty sequence when
nothing matches. -/
theorem c8_grep_literal_substring :
    (∀ (q s : List Char), containsSub q s = true ↔ ∃ l r, s = l ++ q ++ r) ∧
    (∀ (st : Store) (q : String) (pre g : Option String) (m : GrepMatch),
      m ∈ agrep st q pre g ↔
        ∃ c, (m.path, c) ∈ st ∧ underRoot pre m.path = true ∧
          fileGlobOk g pre m.path = true ∧
          ∃ k, ∃ hk : k < (splitOnChar '\n' c.data).length,
            m.line = 1 + k ∧
            m.text = String.mk ((splitOnChar '\n' c.data).get ⟨k, hk⟩) ∧
            containsSub q.data m.text.data = true) ∧
    (∀ (st : Store) (q : String) (pre g : Option String),
      (∀ kv ∈ st, ∀ l ∈ splitOnChar '\n' (Prod.snd kv : String).data,
        containsSub q.data l = false) →
      agrep st q pre g = []) := by
  refine ⟨fun q s => containsSub_iff q s, ?_, ?_⟩
  · intro st q pre g m
    simp only [agrep, List.mem_flatMap]
    constructor
    · rintro ⟨kv, hkv, hm⟩
      by_cases hc : (underRoot pre kv.1 && fileGlobOk g pre kv.1) = true
      · rw [if_pos hc] at hm
        simp only [grepFile] at hm
        obtain ⟨e, he, hfe⟩ := List.mem_filterMap.mp hm
        by_cases hcs : containsSub q.data e.2 = true
        · rw [if_pos hcs] at hfe
          have hme : m = ⟨kv.1, e.1, String.mk e.2⟩ := (Option.some.injEq _ _ ▸ hfe).symm
          subst hme
          obtain ⟨k, hk, hn, ht⟩ := (numberFrom_mem 1 _ e.1 e.2).mp he
          rw [Bool.and_eq_true] at hc
          refine ⟨kv.2, hkv, hc.1, hc.2, k, hk, hn, ?_, hcs⟩
          exact congrArg String.mk ht.symm
        · rw [if_neg hcs] at hfe
          cases hfe
      · rw [if_neg hc] at hm
        simp at hm
    · rintro ⟨c, hmem, hur, hfg, k, hk, hline, htext, hsub⟩
      refine ⟨(m.path, c), hmem, ?_⟩
      rw [if_pos (by rw [hur, hfg]; rfl)]
      simp only [grepFile]
      apply List.mem_filterMap.mpr
      refine ⟨(m.line, (splitOnChar '\n' c.data).get ⟨k, hk⟩), ?_, ?_⟩
      · exact (numberFrom_mem 1 _ _ _).mpr ⟨k, hk, hline, rfl⟩
      · have hcs : containsSub q.data ((splitOnChar '\n' c.data).get ⟨k, hk⟩) = true := by
          rw [htext] at hsub
          exact hsub
        rw [if_pos hcs, htext.symm]
  · intro st q pre g hnone
    simp only [agrep]
    rw [List.flatMap_eq_nil_iff]
    intro kv hkv
    by_cases hc : (underRoot pre kv.1 && fileGlobOk g pre kv.1) = true
    · rw [if_pos hc]
      simp only [grepFile]
      rw [List.filterMap_eq_nil_iff]
      intro e he
      obtain ⟨k, hk, hn, ht⟩ := (numberFrom_mem 1 _ e.1 e.2).mp he
      have hcs : containsSub q.data e.2 = false :=
        ht ▸ hnone kv hkv _ (List.get_mem _ _ _)
      rw [hcs]
      rfl
    · rw [if_neg hc]

/-- Witness for C8: a store with no occurrence of the query greps to the
empty sequence. -/
theorem c8_witness :
    agrep [("/a.txt", "clean line\nanother")] "needle" none none = [] :=
  c8_grep_literal_substring.2.2 [("/a.txt", "clean line\nanother")] "needle"
    none none (by decide)

example : countOccur "l".data "hello".data = 2 := by decide
example : countOccur "X".data "aXbXcX".data = 3 := by decide
example : replaceAllStr "X" "Y" "aXbXcX" = "aYbYcY" := by decide
example : containsSub "needle".data "a needle here".data = true := by decide
example : containsSub "needle".data "nothing".data = false := by decide
example : splitOnChar '\n' "a\nb".data = ["a".data, "b".data] := by decide
example : decode (encode "a\nb\n") = "a\nb\n" := by decide
example : normalizePath "hello.txt" = "/hello.txt" := by decide
example : normalizePath "/x/y" = "/x/y" := by decide
example : natToChars 12 = ['1', '2'] := by decide
example : areadObj [("/test.txt", "line1\nline2")] "test.txt" = "1 | line1\n2 | line2" := by decide
example : areadRel [("/test.txt", "line1\nline2")] "test.txt" = "1\tline1\n2\tline2" := by decide
example : areadObj [] "nonexistent.txt" = "Error: File 'nonexistent.txt' not found" := by decide
example : (awrite [] "new.txt" "content").1.error = none := by decide
example : (awrite [("/exists.txt", "old")] "exists.txt" "content").1.error
    = some "Error: File 'exists.txt' already exists" := by decide
example : (aedit [("/h.txt", "Hello World\nLine 2")] "h.txt" "World" "Integration" false).1
    = ⟨"h.txt", none, 1⟩ := by decide
example : (aedit [("/h.txt", "aXbXc")] "h.txt" "X" "Y" false).1.error
    = some (ambiguousMsg "X") := by decide
example : (aedit [("/h.txt", "aXbXc")] "h.txt" "X" "Y" true).1 = ⟨"h.txt", none, 2⟩ := by decide
example : (aedit [("/h.txt", "aXbXc")] "h.txt" "Z" "Y" false).1.error
    = some (noMatchMsg "Z") := by decide
example : (als_info [("/file1.txt", "x"), ("/dir/file2.txt", "y")] "/").map ListEntry.path
    = ["/file1.txt", "/dir/"] := by decide
example : als_info [("/a.txt", "x"), ("/dir/b.txt", "y")] "/"
    = [⟨"/a.txt", false, 1⟩, ⟨"/dir/", true, 0⟩] := by decide
example : (aglob [("/src/a.py", "A"), ("/src/b.py", "B"), ("/src/sub/c.py", "C")]
    "*.py" "/src").map ListEntry.path = ["/src/a.py", "/src/b.py"] := by decide
example : (aglob [("/src/a.py", "A"), ("/src/b.py", "B"), ("/src/sub/c.py", "C")]
    "**/*.py" "/").map ListEntry.path = ["/src/a.py", "/src/b.py", "/src/sub/c.py"] := by decide
example : (aglob [("/src/a.py", "A")] "*.PY" "/src").map ListEntry.path = [] := by decide
example : (aglob [("/src/a.py", "A"), ("/src/b.py", "B")] "?.py" "/src").map ListEntry.path
    = ["/src/a.py", "/src/b.py"] := by decide
example : (aglob [("/src/a.py", "A")] "*.py" "/").map ListEntry.path = [] := by decide
example : agrep [("/grep_me.txt", "match this pattern\nwrong here")] "pattern" none none
    = [⟨"/grep_me.txt", 1, "match this pattern"⟩] := by decide
example : agrep [("/a.txt", "x")] "needle" none none = [] := by decide
example : agrep [("/src/m.py", "Hello\nworld"), ("/src/r.txt", "Hello")] "Hello"
    (some "/src") (some "*.py") = [⟨"/src/m.py", 1, "Hello"⟩] := by decide
example : s3Key ⟨"unit-test-bucket", "unit-test"⟩ "test.txt" = "unit-test/test.txt" := by decide
example : (s3WriteKeyed ⟨"b", "pre"⟩ [] "new.txt" "content").1.error = none := by decide
example : s3ReadKeyed ⟨"b", "pre"⟩ [(("b", "pre/t.txt"), "line1\nline2")] "t.txt"
    = "1 | line1\n2 | line2" := by decide
